import Mathlib

/-!
Shallow embedding of `psitools/complex_roots.py` (rational barycentric
approximation, pole/zero extraction, domain predicates, and root
continuation) together with theorems settling the frozen claims.

Modelling conventions:
* double-precision complex numbers are idealized as `ℂ` (exact arithmetic);
  real parameters as `ℝ`.
* the external scipy secant solver (`scipy.optimize.root_scalar` with
  `method=secant`) is either abstracted as an oracle argument `solver`
  or instantiated with `secantModel`, an exact-arithmetic secant iteration.
* the external dense eigensolver (`scipy.linalg.eig`) is abstracted as an
  oracle argument `eig`; the repository code only post-processes its output.
* `while` loops of the source are given an explicit fuel parameter; a run
  that consumes all fuel is reported as a distinguished `fuelOut` outcome,
  never conflated with a source-level outcome.
-/

namespace Spec2Proof

/-! ## RationalApproximation.evaluate (complex_roots.py lines 250-280)

The source computes, for a scalar input `z`,
`d = self.weights/(z - mz)`, `n = d*mf`, `ret = np.sum(n)/np.sum(d)`
where `mz`/`mf` are the support nodes and their stored sample values.
There is no branch for `z` coinciding with a support node.  -/

/-- Barycentric evaluation exactly as the source writes it (field junk
semantics: in Lean, `a / 0 = 0`). `w`, `mf`, `mz` are the weights, stored
sample values and support nodes of the current fit. -/
noncomputable def evaluate (w mf mz : List ℂ) (z : ℂ) : ℂ :=
  let d := List.zipWith (fun wi zj => wi / (z - zj)) w mz
  let n := List.zipWith (fun di fi => di * fi) d mf
  n.sum / d.sum

/-- Division that signals division by zero, modelling that an IEEE division
by zero produces a non-finite value rather than a number. -/
noncomputable def cdivChk (a b : ℂ) : Option ℂ := if b = 0 then none else some (a / b)

/-- Option-valued sequencing of a list of checked computations. -/
def mapOpt (f : α → Option β) : List α → Option (List β)
  | [] => some []
  | x :: xs =>
    match f x, mapOpt f xs with
    | some y, some ys => some (y :: ys)
    | _, _ => none

/-- The same barycentric computation as `evaluate`, but every division is
checked: the result is `none` exactly when the source would have performed
a division by zero (producing a non-finite IEEE value). -/
noncomputable def evaluateChecked (w mf mz : List ℂ) (z : ℂ) : Option ℂ :=
  match mapOpt (fun p => cdivChk p.1 (z - p.2)) (w.zip mz) with
  | none => none
  | some d =>
    let n := List.zipWith (fun di fi => di * fi) d mf
    cdivChk n.sum d.sum

theorem mapOpt_eq_none_of_mem {f : α → Option β} {l : List α} {x : α}
    (hx : x ∈ l) (hfx : f x = none) : mapOpt f l = none := by
  induction l with
  | nil => cases hx
  | cons a as ih =>
    rcases List.mem_cons.mp hx with h | h
    · subst h
      simp [mapOpt, hfx]
    · have := ih h
      simp only [mapOpt, this]
      cases f a <;> rfl

/-- At any support node the checked barycentric computation performs a
division by zero (the `i`-th entry of `weights/(z - mz)` has denominator
`mz i - mz i = 0`), so no finite value is produced there. -/
theorem evaluateChecked_at_node (w mf mz : List ℂ) (i : Nat)
    (hw : i < w.length) (hz : i < mz.length) :
    evaluateChecked w mf mz (mz.get ⟨i, hz⟩) = none := by
  have hmem : (w.get ⟨i, hw⟩, mz.get ⟨i, hz⟩) ∈ w.zip mz := by
    have : (w.zip mz).get ⟨i, by simp [List.length_zip]; omega⟩
        = (w.get ⟨i, hw⟩, mz.get ⟨i, hz⟩) := by
      simp [List.getElem_zip]
    rw [← this]
    exact List.get_mem _ _ _
  have hnone : cdivChk (w.get ⟨i, hw⟩)
      (mz.get ⟨i, hz⟩ - mz.get ⟨i, hz⟩) = none := by
    simp [cdivChk]
  unfold evaluateChecked
  rw [mapOpt_eq_none_of_mem hmem hnone]

/-- C1: FALSE of the code. The claim says `evaluate` special-cases exact
node coincidence and returns the stored sample value.  The source has no
such branch: with support nodes `mz = [0, 1]`, stored values `mf = [2, 3]`
and weights `w = [1, 1]`, evaluating at the support node `z = 0` performs
the division `1/(0 - 0)` unguarded (checked semantics: no finite result),
and the value of the formula under exact-field junk semantics is `3`, not the
stored value `2`. -/
theorem C1_no_node_special_case :
    evaluateChecked [1, 1] [2, 3] [0, 1] 0 = none ∧
    evaluate [1, 1] [2, 3] [0, 1] 0 = 3 ∧
    evaluate [1, 1] [2, 3] [0, 1] 0 ≠ 2 := by
  refine ⟨?_, ?_, ?_⟩
  · exact evaluateChecked_at_node [1, 1] [2, 3] [0, 1] 0
      (by norm_num) (by norm_num)
  · norm_num [evaluate]
  · norm_num [evaluate]

/-! ## Domains (complex_roots.py lines 282-337)

`Circle.__init__` and `Rectangle.__init__` only store their arguments;
there is no validation of any kind.  `is_in` uses strict comparisons. -/

/-- Circular domain; fields exactly as stored by `Circle.__init__`. -/
structure Circle where
  c : ℂ
  r : ℝ

/-- Constructor of Circle: stores the arguments, unconditionally. -/
def Circle.init (centre : ℂ) (radius : ℝ) : Circle := ⟨centre, radius⟩

/-- Membership test of Circle: the strict comparison of the source,
`np.abs(z - self.c) < self.r`. -/
def Circle.is_in (C : Circle) (z : ℂ) : Prop := Complex.abs (z - C.c) < C.r

/-- Rectangular domain; fields exactly as stored by `Rectangle.__init__`. -/
structure Rectangle where
  xmin : ℝ
  xmax : ℝ
  ymin : ℝ
  ymax : ℝ

/-- Constructor of Rectangle: unpacks and stores the two
ranges, unconditionally. -/
def Rectangle.init (x_range y_range : ℝ × ℝ) : Rectangle :=
  ⟨x_range.1, x_range.2, y_range.1, y_range.2⟩

/-- Membership test of Rectangle: the conjunction of the four strict comparisons
the source feeds to `np.where(..., True, False)`. -/
def Rectangle.is_in (R : Rectangle) (z : ℂ) : Prop :=
  z.re > R.xmin ∧ z.re < R.xmax ∧ z.im > R.ymin ∧ z.im < R.ymax

/-- Wording of the spec for the circle predicate: strict interior of the disc. -/
def circleSpecIn (center : ℂ) (radius : ℝ) (z : ℂ) : Prop :=
  Complex.abs (z - center) < radius

/-- Wording of the spec for the rectangle: strictly inside all four bounds. -/
def rectangleSpecIn (xmin xmax ymin ymax : ℝ) (z : ℂ) : Prop :=
  xmin < z.re ∧ z.re < xmax ∧ ymin < z.im ∧ z.im < ymax

/-- C7: membership is the strict inequality of the spec for both domain
kinds, the unit circle at the origin excludes `1 + 0i`, and points on any
edge of the unit rectangle are excluded. -/
theorem C7_domain_strict_boundaries :
    (∀ (c : ℂ) (r : ℝ) (z : ℂ),
        (Circle.init c r).is_in z ↔ circleSpecIn c r z) ∧
    (∀ (xr yr : ℝ × ℝ) (z : ℂ),
        (Rectangle.init xr yr).is_in z ↔
          rectangleSpecIn xr.1 xr.2 yr.1 yr.2 z) ∧
    ¬ (Circle.init 0 1).is_in 1 ∧
    ¬ (Rectangle.init (0, 1) (0, 1)).is_in ⟨0, 1/2⟩ ∧
    ¬ (Rectangle.init (0, 1) (0, 1)).is_in ⟨1, 1/2⟩ ∧
    ¬ (Rectangle.init (0, 1) (0, 1)).is_in ⟨1/2, 0⟩ ∧
    ¬ (Rectangle.init (0, 1) (0, 1)).is_in ⟨1/2, 1⟩ := by
  refine ⟨?_, ?_, ?_, ?_, ?_, ?_, ?_⟩
  · intro c r z
    constructor <;> exact fun h => h
  · intro xr yr z
    unfold Rectangle.is_in rectangleSpecIn Rectangle.init
    tauto
  · unfold Circle.is_in Circle.init
    norm_num
  · unfold Rectangle.is_in Rectangle.init
    norm_num
  · unfold Rectangle.is_in Rectangle.init
    norm_num
  · unfold Rectangle.is_in Rectangle.init
    norm_num
  · unfold Rectangle.is_in Rectangle.init
    norm_num

/-- C9 counterexample: FALSE of the code. Constructing a `Circle` with
negative radius or a `Rectangle` with an empty x-range does not fail:
the constructors store the arguments and return usable objects, whose
membership predicates simply evaluate (to `False` here). -/
theorem C9_counter_no_validation :
    (Circle.init 0 (-1)).r = -1 ∧
    ¬ (Circle.init 0 (-1)).is_in 0 ∧
    (Rectangle.init (0, 0) (0, 1)).xmax = 0 ∧
    ¬ (Rectangle.init (0, 0) (0, 1)).is_in ⟨0, 1/2⟩ := by
  refine ⟨rfl, ?_, rfl, ?_⟩
  · unfold Circle.is_in Circle.init
    intro h
    have := (Complex.abs.nonneg (0 - 0)).trans_lt h
    norm_num at this
  · unfold Rectangle.is_in Rectangle.init
    norm_num

/-- C9 amended: construction never validates; a circle with non-positive
radius and a rectangle with an empty x-range are built successfully and
their membership predicates are everywhere false. -/
theorem C9_degenerate_domains_usable (c : ℂ) (r : ℝ) (xr yr : ℝ × ℝ)
    (hr : r ≤ 0) (hx : xr.2 ≤ xr.1) :
    (Circle.init c r).r = r ∧
    (∀ z, ¬ (Circle.init c r).is_in z) ∧
    (∀ z, ¬ (Rectangle.init xr yr).is_in z) := by
  refine ⟨rfl, ?_, ?_⟩
  · intro z h
    have := (Complex.abs.nonneg (z - c)).trans_lt h
    exact absurd (this.trans_le hr) (lt_irrefl 0)
  · rintro z ⟨h1, h2, h3, h4⟩
    simp only [Rectangle.init] at h1 h2
    exact absurd ((h1.trans h2).trans_le hx) (lt_irrefl xr.1)

/-- C9 amended, witnessed at a concrete degenerate circle and rectangle. -/
theorem C9_degenerate_domains_usable_witness :
    ((-1 : ℝ) ≤ 0 ∧ ((0 : ℝ), (0 : ℝ)).2 ≤ ((0 : ℝ), (0 : ℝ)).1) ∧
    ((Circle.init 0 (-1)).r = -1 ∧
      (∀ z, ¬ (Circle.init 0 (-1)).is_in z) ∧
      (∀ z, ¬ (Rectangle.init (0, 0) (0, 1)).is_in z)) :=
  ⟨⟨by norm_num, by norm_num⟩,
    C9_degenerate_domains_usable 0 (-1) (0, 0) (0, 1)
      (by norm_num) (by norm_num)⟩

/-! ## Pole and zero extraction (complex_roots.py lines 117-203)

Both `find_zeros` and `find_poles` build an `(m+1) x (m+1)` arrowhead
pencil `(A, B)` from the support nodes `mz` (diagonal `[0, mz...]`, first
column of ones) differing only in the first row (`weights*mf` for zeros,
`weights` for poles), hand it to `sp.linalg.eig`, and drop the first two
(formally infinite) eigenvalues.  The eigensolver is external; it is
abstracted as an oracle `eig` taking the two matrices (as row lists). -/

/-- The arrowhead matrix `A` as a list of rows: diagonal `0 :: mz`,
first row `0 :: firstRow`, first column of ones below the corner. -/
def arrowhead (mz firstRow : List ℂ) : List (List ℂ) :=
  (0 :: firstRow) ::
    (List.range mz.length).map (fun i =>
      1 :: (List.range mz.length).map (fun j => if j = i then mz.getD i 0 else 0))

/-- The diagonal matrix `B = diag(0, 1, ..., 1)` of size `(m+1) x (m+1)`. -/
def diagB (m : Nat) : List (List ℂ) :=
  (List.range (m + 1)).map (fun i =>
    (List.range (m + 1)).map (fun j => if i = j ∧ i ≠ 0 then 1 else 0))

/-- Source method find_poles: eigenvalues of the pencil with first row `weights`,
first two entries (the formally infinite ones) dropped. -/
def findPoles (eig : List (List ℂ) → List (List ℂ) → List ℂ)
    (mz w : List ℂ) : List ℂ :=
  (eig (arrowhead mz w) (diagB mz.length)).drop 2

/-- Source method find_poles_in_domain: the source repeats the `find_poles` body
verbatim and then keeps `e[sel]` for `sel = domain.is_in(e).nonzero()`. -/
def findPolesInDomain (eig : List (List ℂ) → List (List ℂ) → List ℂ)
    (isIn : ℂ → Bool) (mz w : List ℂ) : List ℂ :=
  ((eig (arrowhead mz w) (diagB mz.length)).drop 2).filter isIn

/-- C6: for every eigensolver behaviour, every domain predicate and every
fit state, `find_poles_in_domain` is exactly the `is_in`-filtered result
of `find_poles` — hence an order-preserving sublist of it. -/
theorem C6_poles_in_domain_is_filter
    (eig : List (List ℂ) → List (List ℂ) → List ℂ)
    (isIn : ℂ → Bool) (mz w : List ℂ) :
    findPolesInDomain eig isIn mz w = (findPoles eig mz w).filter isIn ∧
    (findPolesInDomain eig isIn mz w).Sublist (findPoles eig mz w) := by
  constructor
  · rfl
  · exact List.filter_sublist _

/-! ## Secant polishing in find_zeros (complex_roots.py lines 136-146)

Each raw eigenvalue estimate `z0` is polished by a secant solve of
`evaluate(z) = 0` seeded from `z0` and a perturbed `z1`; the source reads
`.root` off the solver result without ever inspecting `.converged`. -/

/-- Result of a scipy `root_scalar` call: final iterate and success flag. -/
structure SecRes where
  root : ℂ
  converged : Bool

/-- The second secant guess: `z1 = z0*(1+eps); z1 += eps if z1.real >= 0
else -eps` (identical construction in `find_zeros` and `RootFollower`). -/
noncomputable def perturb (z0 : ℂ) (eps : ℝ) : ℂ :=
  let z1 := z0 * (1 + (eps : ℂ))
  if 0 ≤ z1.re then z1 + (eps : ℂ) else z1 - (eps : ℂ)

/-- Source method find_zeros: arrowhead pencil with first row `weights*mf`, drop the
two infinite eigenvalues, then replace each raw root by the `.root` field
of the secant solve seeded from it (`eps = 1e-6`), unconditionally. -/
noncomputable def findZeros (eig : List (List ℂ) → List (List ℂ) → List ℂ)
    (solver : (ℂ → ℂ) → ℂ → ℂ → SecRes) (w mf mz : List ℂ) : List ℂ :=
  let sf := List.zipWith (fun wi fi => wi * fi) w mf
  let raw := (eig (arrowhead mz sf) (diagB mz.length)).drop 2
  raw.map (fun z0 =>
    (solver (evaluate w mf mz) z0 (perturb z0 (1/1000000))).root)

/-- C8: FALSE of the claim as an error-handling statement about the
code. With an eigensolver producing one raw estimate `5` and a polishing
solve that reports `converged = false` with final iterate `42`,
`find_zeros` silently returns `[42]`: the convergence flag is never
inspected and no error path exists. -/
theorem C8_unconverged_polish_returned :
    findZeros (fun _ _ => [0, 0, 5]) (fun _ _ _ => ⟨42, false⟩)
      [1] [1] [1] = [42] := by
  rfl

/-! ## Greedy-fit partition dynamics (complex_roots.py lines 62-110)

`calculate` keeps a 0/1 array `maskF` of length `M`; support = indices
with `maskF = 1`, excluded = indices with `maskF = 0`.  `first_step` sets
indices 0 and 1.  `step` takes `i = np.argmax(self.R)` (a position within
the excluded set, `len(R) = |excluded|`), maps it to a global index with
`counts = np.cumsum(1 - maskF); i = np.searchsorted(counts, i + 1)` and
sets that mask entry.  The residual vector comes from the SVD, which is
external: it is abstracted as an oracle giving the residuals of each step,
over an arbitrary linearly ordered residual type (`ℝ` in the source). -/

/-- Embeds `np.cumsum` with explicit accumulator (inclusive prefix sums). -/
def cumsumFrom (acc : Nat) : List Nat → List Nat
  | [] => []
  | x :: xs => (acc + x) :: cumsumFrom (acc + x) xs

/-- Embeds `np.searchsorted(a, v)` with its default left side: the first
index at which `v ≤ a[idx]`, or `a.length` if none. -/
def searchsortedLeft : List Nat → Nat → Nat
  | [], _ => 0
  | x :: xs, v => if v ≤ x then 0 else searchsortedLeft xs v + 1

/-- Helper for `np.argmax`: best index so far, best value, next index. -/
def argmaxGo [LinearOrder α] : Nat → α → Nat → List α → Nat
  | bi, _, _, [] => bi
  | bi, bv, i, y :: ys =>
    if bv < y then argmaxGo i y (i + 1) ys else argmaxGo bi bv (i + 1) ys

/-- Embeds `np.argmax`: index of the first occurrence of the maximum. -/
def argmaxIdx [LinearOrder α] : List α → Nat
  | [] => 0
  | x :: xs => argmaxGo 0 x 1 xs

/-- Embeds `1 - maskF`: indicator of the excluded set. -/
def exIndicator (mask : List Bool) : List Nat :=
  mask.map (fun b => if b then 0 else 1)

/-- Partition update of RationalApproximation.step: move the excluded
point at excluded-position `argmax R` into support via the
cumsum/searchsorted remap. -/
def stepMask [LinearOrder α] (mask : List Bool) (R : List α) : List Bool :=
  mask.set (searchsortedLeft (cumsumFrom 0 (exIndicator mask)) (argmaxIdx R + 1))
    true

/-- Partition update of first_step applied to the fresh mask of
`calculate`: `maskF = np.zeros(M); maskF[0] = 1; maskF[1] = 1`. -/
def initMask (M : Nat) : List Bool :=
  ((List.replicate M false).set 0 true).set 1 true

/-- Runs `t` greedy growth steps, the residual vector of step `j` supplied by
the SVD oracle. -/
def growLoop [LinearOrder α] (oracle : Nat → List α) : Nat → List Bool → List Bool
  | 0, mask => mask
  | t + 1, mask => stepMask (growLoop oracle t mask) (oracle t)

/-- Positions of the entries satisfying `p`, starting from index `n`
(`np.nonzero` on a boolean mask). -/
def idxWhereAux (p : α → Bool) : List α → Nat → List Nat
  | [], _ => []
  | x :: xs, n =>
    if p x then n :: idxWhereAux p xs (n + 1) else idxWhereAux p xs (n + 1)

/-- Embeds `np.nonzero`: positions of the entries satisfying `p`. -/
def idxWhere (p : α → Bool) (l : List α) : List Nat := idxWhereAux p l 0

theorem countP_id_add_countP_not (l : List Bool) :
    l.countP (fun b => b) + l.countP (fun b => !b) = l.length := by
  induction l with
  | nil => rfl
  | cons b rest ih =>
    cases b <;> simp [List.countP_cons] <;> omega

theorem argmaxGo_lt [LinearOrder α] (ys : List α) :
    ∀ (bi : Nat) (bv : α) (i : Nat), bi < i →
      argmaxGo bi bv i ys < i + ys.length := by
  induction ys with
  | nil =>
    intro bi bv i h
    simpa [argmaxGo] using h.trans_le (Nat.le_add_right i 0)
  | cons y ys ih =>
    intro bi bv i h
    simp only [argmaxGo, List.length_cons]
    by_cases hlt : bv < y
    · rw [if_pos hlt]
      have := ih i y (i + 1) (Nat.lt_succ_self i)
      omega
    · rw [if_neg hlt]
      have := ih bi bv (i + 1) (h.trans (Nat.lt_succ_self i))
      omega

theorem argmaxIdx_lt_length [LinearOrder α] (R : List α) (hR : R ≠ []) :
    argmaxIdx R < R.length := by
  cases R with
  | nil => exact absurd rfl hR
  | cons x xs =>
    have h := argmaxGo_lt xs 0 x 1 Nat.zero_lt_one
    simp only [argmaxIdx, List.length_cons]
    omega

/-- The cumsum/searchsorted remap is correct: if `acc < v` and `v`
exceeds `acc` by at most the number of excluded entries, the found
position is in range and currently excluded. -/
theorem searchsorted_cumsum_finds_false :
    ∀ (mask : List Bool) (acc v : Nat), acc < v →
      v ≤ acc + mask.countP (fun b => !b) →
      searchsortedLeft (cumsumFrom acc (exIndicator mask)) v < mask.length ∧
      mask.getD (searchsortedLeft (cumsumFrom acc (exIndicator mask)) v) true
        = false := by
  intro mask
  induction mask with
  | nil =>
    intro acc v h1 h2
    simp [List.countP_nil] at h2
    omega
  | cons b rest ih =>
    intro acc v h1 h2
    cases b with
    | true =>
      have hmap : exIndicator (true :: rest) = 0 :: exIndicator rest := by
        simp [exIndicator]
      have hne : ¬ v ≤ acc + 0 := by omega
      have hsl : searchsortedLeft (cumsumFrom acc (exIndicator (true :: rest))) v
          = searchsortedLeft (cumsumFrom acc (exIndicator rest)) v + 1 := by
        rw [hmap]
        show (if v ≤ acc + 0 then 0
          else searchsortedLeft (cumsumFrom (acc + 0) (exIndicator rest)) v + 1)
            = _
        simp only [Nat.add_zero]
        rw [if_neg (show ¬ v ≤ acc by omega)]
      have hcount : v ≤ acc + rest.countP (fun b => !b) := by
        have : (true :: rest).countP (fun b => !b)
            = rest.countP (fun b => !b) := by
          simp [List.countP_cons]
        omega
      have hrec := ih acc v h1 hcount
      rw [hsl]
      refine ⟨?_, ?_⟩
      · simp only [List.length_cons]
        omega
      · simpa [List.getD_cons_succ] using hrec.2
    | false =>
      have hmap : exIndicator (false :: rest) = 1 :: exIndicator rest := by
        simp [exIndicator]
      by_cases hle : v ≤ acc + 1
      · have hsl : searchsortedLeft
            (cumsumFrom acc (exIndicator (false :: rest))) v = 0 := by
          rw [hmap]
          show (if v ≤ acc + 1 then 0
            else searchsortedLeft (cumsumFrom (acc + 1) (exIndicator rest)) v + 1)
              = 0
          rw [if_pos hle]
        rw [hsl]
        exact ⟨by simp, rfl⟩
      · have hsl : searchsortedLeft
            (cumsumFrom acc (exIndicator (false :: rest))) v
            = searchsortedLeft (cumsumFrom (acc + 1) (exIndicator rest)) v + 1 := by
          rw [hmap]
          show (if v ≤ acc + 1 then 0
            else searchsortedLeft (cumsumFrom (acc + 1) (exIndicator rest)) v + 1)
              = _
          rw [if_neg hle]
        have hcount : v ≤ (acc + 1) + rest.countP (fun b => !b) := by
          have : (false :: rest).countP (fun b => !b)
              = rest.countP (fun b => !b) + 1 := by
            simp [List.countP_cons]
          omega
        have hrec := ih (acc + 1) v (by omega) hcount
        rw [hsl]
        refine ⟨?_, ?_⟩
        · simp only [List.length_cons]
          omega
        · simpa [List.getD_cons_succ] using hrec.2

theorem countP_set_true_of_false :
    ∀ (mask : List Bool) (j : Nat), j < mask.length →
      mask.getD j true = false →
      (mask.set j true).countP (fun b => b)
        = mask.countP (fun b => b) + 1 := by
  intro mask
  induction mask with
  | nil => intro j h; simp at h
  | cons b rest ih =>
    intro j hj hb
    cases j with
    | zero =>
      simp only [List.getD_cons_zero] at hb
      subst hb
      simp [List.countP_cons]
    | succ j =>
      simp only [List.getD_cons_succ] at hb
      have := ih j (by simpa using Nat.lt_of_succ_lt_succ hj) hb
      cases b <;> simp [List.set_cons_succ, List.countP_cons, this]

/-- One growth step strictly grows the support: the remapped index is an
excluded entry, which `step` flips into support. -/
theorem stepMask_counts [LinearOrder α] (mask : List Bool) (R : List α)
    (hR : R ≠ []) (hlen : R.length ≤ mask.countP (fun b => !b)) :
    (stepMask mask R).countP (fun b => b) = mask.countP (fun b => b) + 1 ∧
    (stepMask mask R).length = mask.length := by
  have hv : argmaxIdx R + 1 ≤ 0 + mask.countP (fun b => !b) := by
    have := argmaxIdx_lt_length R hR
    omega
  have hfind := searchsorted_cumsum_finds_false mask 0 (argmaxIdx R + 1)
    (Nat.succ_pos _) hv
  exact ⟨countP_set_true_of_false mask _ hfind.1 hfind.2, List.length_set ..⟩

theorem initMask_counts (M : Nat) (hM : 2 ≤ M) :
    (initMask M).length = M ∧ (initMask M).countP (fun b => b) = 2 := by
  obtain ⟨m, rfl⟩ : ∃ m, M = m + 2 := ⟨M - 2, by omega⟩
  have hrep : ∀ n, (List.replicate n false).countP (fun b => b) = 0 := by
    intro n
    induction n with
    | zero => rfl
    | succ n ih => simp [List.replicate_succ, List.countP_cons, ih]
  constructor
  · simp [initMask]
  · simp [initMask, List.replicate_succ, List.countP_cons, hrep]

theorem length_idxWhereAux (p : α → Bool) :
    ∀ (l : List α) (n : Nat),
      (idxWhereAux p l n).length = l.countP p := by
  intro l
  induction l with
  | nil => intro n; rfl
  | cons x xs ih =>
    intro n
    by_cases hx : p x
    · simp [idxWhereAux, hx, List.countP_cons, ih]
    · simp [idxWhereAux, hx, List.countP_cons, ih]

theorem mem_idxWhereAux {p : α → Bool} :
    ∀ {l : List α} {n i : Nat}, i ∈ idxWhereAux p l n →
      n ≤ i ∧ ∃ x, l.get? (i - n) = some x ∧ p x = true := by
  intro l
  induction l with
  | nil => intro n i h; simp [idxWhereAux] at h
  | cons x xs ih =>
    intro n i h
    by_cases hx : p x
    · simp only [idxWhereAux, if_pos hx, List.mem_cons] at h
      rcases h with rfl | h
      · exact ⟨le_refl i, x, by simp, hx⟩
      · obtain ⟨hn, y, hy, hpy⟩ := ih h
        refine ⟨by omega, y, ?_, hpy⟩
        have : i - n = (i - (n + 1)) + 1 := by omega
        rw [this, List.get?_cons_succ]
        exact hy
    · simp only [idxWhereAux, if_neg hx] at h
      obtain ⟨hn, y, hy, hpy⟩ := ih h
      refine ⟨by omega, y, ?_, hpy⟩
      have : i - n = (i - (n + 1)) + 1 := by omega
      rw [this, List.get?_cons_succ]
      exact hy

/-- C4: the mask is a partition of the `M` sample indices at every state
(support and excluded counts sum to `M`, and no index is listed in both),
and after the two-node seed plus `t ≤ m` greedy growth steps (where each
residual vector has one entry per excluded point) the support has
exactly `t + 2` members. -/
theorem C4_partition_and_support_growth {α : Type} [LinearOrder α]
    (M m t : Nat) (oracle : Nat → List α)
    (hM : 2 ≤ M) (hm : m + 2 ≤ M)
    (hor : ∀ j, j < m → (oracle j).length = M - (j + 2)) (ht : t ≤ m) :
    (growLoop oracle t (initMask M)).length = M ∧
    (growLoop oracle t (initMask M)).countP (fun b => b) = t + 2 ∧
    (growLoop oracle t (initMask M)).countP (fun b => b)
      + (growLoop oracle t (initMask M)).countP (fun b => !b) = M ∧
    (idxWhere (fun b => b) (growLoop oracle t (initMask M))).length
      + (idxWhere (fun b => !b) (growLoop oracle t (initMask M))).length = M ∧
    ∀ i, ¬ (i ∈ idxWhere (fun b => b) (growLoop oracle t (initMask M)) ∧
            i ∈ idxWhere (fun b => !b) (growLoop oracle t (initMask M))) := by
  have main : ∀ s, s ≤ m →
      (growLoop oracle s (initMask M)).length = M ∧
      (growLoop oracle s (initMask M)).countP (fun b => b) = s + 2 := by
    intro s
    induction s with
    | zero =>
      intro _
      exact ⟨(initMask_counts M hM).1, (initMask_counts M hM).2⟩
    | succ s ih =>
      intro hs
      obtain ⟨ihlen, ihcount⟩ := ih (by omega)
      have hnot : (growLoop oracle s (initMask M)).countP (fun b => !b)
          = M - (s + 2) := by
        have := countP_id_add_countP_not (growLoop oracle s (initMask M))
        omega
      have horacle : (oracle s).length = M - (s + 2) := hor s (by omega)
      have hne : oracle s ≠ [] := by
        intro hnil
        rw [hnil] at horacle
        simp at horacle
        omega
      have hlen : (oracle s).length
          ≤ (growLoop oracle s (initMask M)).countP (fun b => !b) := by
        omega
      obtain ⟨hc, hl⟩ := stepMask_counts (growLoop oracle s (initMask M))
        (oracle s) hne hlen
      exact ⟨by simp [growLoop, hl, ihlen], by simp [growLoop, hc, ihcount]⟩
  obtain ⟨hlen, hcount⟩ := main t ht
  have hsum := countP_id_add_countP_not (growLoop oracle t (initMask M))
  refine ⟨hlen, hcount, by omega, ?_, ?_⟩
  · rw [idxWhere, idxWhere, length_idxWhereAux, length_idxWhereAux]
    omega
  · rintro i ⟨h1, h2⟩
    obtain ⟨-, x, hx, hpx⟩ := mem_idxWhereAux h1
    obtain ⟨-, y, hy, hpy⟩ := mem_idxWhereAux h2
    rw [hx] at hy
    cases hy
    rw [hpx] at hpy
    simp at hpy

/-- C4, witnessed at `M = 6` with one growth step and a concrete rational
residual vector. -/
theorem C4_partition_and_support_growth_witness :
    ((2 ≤ 6) ∧ (1 + 2 ≤ 6) ∧
      (∀ j, j < 1 → ([(1 : ℚ), 2, 3, 4]).length = 6 - (j + 2)) ∧ 1 ≤ 1) ∧
    ((growLoop (fun _ => [(1 : ℚ), 2, 3, 4]) 1 (initMask 6)).length = 6 ∧
      (growLoop (fun _ => [(1 : ℚ), 2, 3, 4]) 1
        (initMask 6)).countP (fun b => b) = 1 + 2 ∧
      (growLoop (fun _ => [(1 : ℚ), 2, 3, 4]) 1
          (initMask 6)).countP (fun b => b)
        + (growLoop (fun _ => [(1 : ℚ), 2, 3, 4]) 1
            (initMask 6)).countP (fun b => !b) = 6 ∧
      (idxWhere (fun b => b)
          (growLoop (fun _ => [(1 : ℚ), 2, 3, 4]) 1 (initMask 6))).length
        + (idxWhere (fun b => !b)
            (growLoop (fun _ => [(1 : ℚ), 2, 3, 4]) 1 (initMask 6))).length
          = 6 ∧
      ∀ i, ¬ (i ∈ idxWhere (fun b => b)
                (growLoop (fun _ => [(1 : ℚ), 2, 3, 4]) 1 (initMask 6)) ∧
              i ∈ idxWhere (fun b => !b)
                (growLoop (fun _ => [(1 : ℚ), 2, 3, 4]) 1 (initMask 6)))) := by
  have hor : ∀ j, j < 1 → ([(1 : ℚ), 2, 3, 4]).length = 6 - (j + 2) := by
    intro j hj
    interval_cases j
    rfl
  exact ⟨⟨by norm_num, by norm_num, hor, le_refl 1⟩,
    C4_partition_and_support_growth 6 1 1 (fun _ => [(1 : ℚ), 2, 3, 4])
      (by norm_num) (by norm_num) hor (le_refl 1)⟩

/-! ## RootFollower (complex_roots.py lines 340-427)

`calculate` zero-initializes the result array, then runs `_calculate`
separately on the strictly-below and strictly-above halves of `k_want`
(scattering the sub-results back through the boolean-mask positions).
`_calculate` keeps `z0 = z_start` and `z1 = perturb(z0, 1e-4)` fixed for
the whole run — the reseeding statements of the source are commented out —
and for each target `kw` repeats: secant-solve at `k + k_step`; accept only
if converged *and* `root.imag*z0.imag > 0`; otherwise divide `k_step` by
10 and, when `k_step < 1e-6`, return the result array as it stands.  On
acceptance `k += k_step`, `k_step *= sqrt(2)`, and if `k + k_step`
overshoots `kw` the loop finishes, storing the last accepted root.

The while-loops get fuel; running out of fuel is the model-level outcome
`fuelOut`, distinct from every source-level outcome.  Each secant call is
recorded in a trace as its seed pair `(x0, x1)`. -/

/-- Idealized model of the external scipy secant solver: iterate the
secant update from `p0, p1`; report success when the residual vanishes
(exact arithmetic), a secant breakdown (`f p1 = f p0`) or running out of
iterations as failure. -/
noncomputable def secantIter (f : ℂ → ℂ) : ℂ → ℂ → Nat → SecRes
  | _, p1, 0 => ⟨p1, false⟩
  | p0, p1, n + 1 =>
    if f p1 = 0 then ⟨p1, true⟩
    else if f p1 = f p0 then ⟨(p0 + p1) / 2, false⟩
    else secantIter f p1 (p1 - f p1 * (p1 - p0) / (f p1 - f p0)) n

/-- The solver instance used by `RootFollower`: `maxiter=10` as in the
source call `opt.root_scalar(..., maxiter=10)`. -/
noncomputable def secantModel (f : ℂ → ℂ) (x0 x1 : ℂ) : SecRes :=
  secantIter f x0 x1 10

/-- State of RootFollower: the equation and the anchor pair. -/
structure RootFollower where
  func : ℂ → ℝ → ℂ
  z_start : ℂ
  k_start : ℝ

/-- Outcome of the inner step-shrinking `while` loop. -/
inductive ShrinkOut
  | accept (z : SecRes) (ks : ℝ)
  | exhausted
  | fuelOut

/-- Outcome of the outer per-target `while` loop. -/
inductive ContOut
  | ok (k : ℝ) (root : ℂ)
  | exhausted
  | fuelOut

/-- Outcome of `_calculate`. -/
inductive CalcOut
  | ok (ret : List ℂ)
  | fuelOut

/-- Inner loop of `_calculate`: try a secant solve at `k + k_step`; on
`converged` with `root.imag*z0.imag > 0`, accept; otherwise shrink
`k_step` by 10 and, if `k_step < 1e-6`, report exhaustion (the statement
`return ret` of the source).  Also returns the seed pair of every secant call made. -/
noncomputable def shrinkLoopT (rf : RootFollower)
    (solver : (ℂ → ℂ) → ℂ → ℂ → SecRes) (z0 z1 : ℂ) (k : ℝ) :
    ℝ → Nat → ShrinkOut × List (ℂ × ℂ)
  | _, 0 => (ShrinkOut.fuelOut, [])
  | ks, fuel + 1 =>
    let z := solver (fun x => rf.func x (k + ks)) z0 z1
    if z.converged = true ∧ z.root.im * z0.im > 0 then
      (ShrinkOut.accept z ks, [(z0, z1)])
    else
      let ksn := ks / 10
      if ksn < 1 / 1000000 then (ShrinkOut.exhausted, [(z0, z1)])
      else
        let r := shrinkLoopT rf solver z0 z1 k ksn fuel
        (r.1, (z0, z1) :: r.2)

/-- Outer loop of `_calculate` for one target `kw`: after an accepted
step, advance `k`, grow the step by `sqrt 2`, and if the grown step would
overshoot `kw` the loop finishes with the root just accepted (the
truncated final step of the source is assigned but never executed,
because `finished` breaks the loop first). -/
noncomputable def contLoopT (rf : RootFollower)
    (solver : (ℂ → ℂ) → ℂ → ℂ → SecRes) (z0 z1 : ℂ) (sf : Nat) (kw : ℝ) :
    ℝ → ℝ → Nat → ContOut × List (ℂ × ℂ)
  | _, _, 0 => (ContOut.fuelOut, [])
  | k, ks, cf + 1 =>
    let s := shrinkLoopT rf solver z0 z1 k ks sf
    match s.1 with
    | ShrinkOut.exhausted => (ContOut.exhausted, s.2)
    | ShrinkOut.fuelOut => (ContOut.fuelOut, s.2)
    | ShrinkOut.accept z ksAcc =>
      let kn := k + ksAcc
      let ksg := ksAcc * Real.sqrt 2
      if (0 < ksg ∧ kw < kn + ksg) ∨ ((¬ 0 < ksg) ∧ kn + ksg < kw) then
        (ContOut.ok kn z.root, s.2)
      else
        let r := contLoopT rf solver z0 z1 sf kw kn ksg cf
        (r.1, s.2 ++ r.2)

/-- The target loop of `_calculate`: walk the targets in order, writing
each accepted root at `ret[idx]` (`idx` counted from the end when the
batch lies below `k_start`), carrying `k` over from target to target.  On
exhaustion the current `ret` is returned at once (the statement
`return ret` of the source), abandoning the current and all remaining targets. -/
noncomputable def calcAuxT (rf : RootFollower)
    (solver : (ℂ → ℂ) → ℂ → ℂ → SecRes) (z0 z1 : ℂ) (desc : Bool)
    (n sf cf : Nat) :
    List ℝ → Nat → ℝ → List ℂ → CalcOut × List (ℂ × ℂ)
  | [], _, _, ret => (CalcOut.ok ret, [])
  | kw :: rest, i, k, ret =>
    let c := contLoopT rf solver z0 z1 sf kw k (kw - k) cf
    match c.1 with
    | ContOut.exhausted => (CalcOut.ok ret, c.2)
    | ContOut.fuelOut => (CalcOut.fuelOut, c.2)
    | ContOut.ok kn root =>
      let r := calcAuxT rf solver z0 z1 desc n sf cf rest (i + 1) kn
        (ret.set (if desc then n - 1 - i else i) root)
      (r.1, c.2 ++ r.2)

/-- Embeds the source method _calculate: result array starts as zeros,
`z0`/`z1` are the anchor and its `eps = 1e-4` perturbation (never
updated), targets are indexed backwards when the batch lies below the
anchor parameter. -/
noncomputable def RootFollower.calcT (rf : RootFollower)
    (solver : (ℂ → ℂ) → ℂ → ℂ → SecRes) (kwant : List ℝ) (sf cf : Nat) :
    CalcOut × List (ℂ × ℂ) :=
  let z0 := rf.z_start
  let z1 := perturb z0 (1 / 10000)
  let desc : Bool :=
    match kwant with
    | [] => false
    | k0 :: _ => decide (k0 < rf.k_start)
  calcAuxT rf solver z0 z1 desc kwant.length sf cf kwant 0 rf.k_start
    (List.replicate kwant.length 0)

/-- Embeds `ret[sel] = vals`: elementwise scatter of `vals` at positions `sel`. -/
def scatter : List ℂ → List Nat → List ℂ → List ℂ
  | ret, [], _ => ret
  | ret, _ :: _, [] => ret
  | ret, i :: is, v :: vs => scatter (ret.set i v) is vs

/-- Embeds the source method calculate: zero-initialize, run `_calculate`
on the strictly-below batch and the strictly-above batch, and scatter the
two sub-results back at the mask positions.  `none` only when a batch ran
out of model fuel. -/
noncomputable def RootFollower.calculateT (rf : RootFollower)
    (solver : (ℂ → ℂ) → ℂ → ℂ → SecRes) (kwant : List ℝ) (sf cf : Nat) :
    Option (List ℂ) × List (ℂ × ℂ) :=
  let ret := List.replicate kwant.length 0
  let ltP : ℝ → Bool := fun x => decide (x < rf.k_start)
  let gtP : ℝ → Bool := fun x => decide (rf.k_start < x)
  let ltR := rf.calcT solver (kwant.filter ltP) sf cf
  let gtR := rf.calcT solver (kwant.filter gtP) sf cf
  let res : Option (List ℂ) :=
    match ltR.1, gtR.1 with
    | CalcOut.ok ltV, CalcOut.ok gtV =>
      some (scatter (scatter ret (idxWhere ltP kwant) ltV)
        (idxWhere gtP kwant) gtV)
    | _, _ => none
  (res, ltR.2 ++ gtR.2)

/-- The trivial continuation instance of the testable property of the spec:
`equation(z, k) = z - k` anchored at `(z_start, k_start) = (0, 0)`. -/
noncomputable def rfTriv : RootFollower := ⟨fun z k => z - (k : ℂ), 0, 0⟩

/-- A continuation instance with a genuinely complex root path:
`equation(z, k) = z - i - k` anchored at `(i, 0)`, root `k + i`. -/
noncomputable def rfI : RootFollower :=
  ⟨fun z k => z - Complex.I - (k : ℂ), Complex.I, 0⟩

/-- When the anchor root is real (`z0.im = 0`), the acceptance test
`z.root.imag * z0.imag > 0` is false for every solver outcome, so the
inner loop keeps dividing the step by 10 until it drops below `1e-6` and
reports exhaustion. -/
theorem shrinkLoopT_exhausts (rf : RootFollower)
    (solver : (ℂ → ℂ) → ℂ → ℂ → SecRes) (z0 z1 : ℂ) (k : ℝ)
    (him : z0.im = 0) :
    ∀ (n : Nat) (ks : ℝ), ks / 10 ^ (n + 1) < 1 / 1000000 →
      (shrinkLoopT rf solver z0 z1 k ks (n + 1)).1 = ShrinkOut.exhausted := by
  have hknock : ∀ zz : SecRes,
      ¬ (zz.converged = true ∧ zz.root.im * z0.im > 0) := by
    intro zz h
    rw [him, mul_zero] at h
    exact lt_irrefl 0 h.2
  intro n
  induction n with
  | zero =>
    intro ks hks
    rw [zero_add, pow_one] at hks
    rw [shrinkLoopT]
    rw [if_neg (hknock _), if_pos hks]
  | succ m ih =>
    intro ks hks
    rw [shrinkLoopT]
    rw [if_neg (hknock _)]
    by_cases hsmall : ks / 10 < 1 / 1000000
    · rw [if_pos hsmall]
    · rw [if_neg hsmall]
      have hnext : ks / 10 / 10 ^ (m + 1) < 1 / 1000000 := by
        rw [div_div, ← pow_succ']
        exact hks
      exact ih (ks / 10) hnext

/-- An exhausted inner loop makes the per-target loop report exhaustion. -/
theorem contLoopT_exhausts (rf : RootFollower)
    (solver : (ℂ → ℂ) → ℂ → ℂ → SecRes) (z0 z1 : ℂ) (sf : Nat)
    (kw k ks : ℝ) (cf : Nat)
    (hs : (shrinkLoopT rf solver z0 z1 k ks sf).1 = ShrinkOut.exhausted) :
    (contLoopT rf solver z0 z1 sf kw k ks (cf + 1)).1 = ContOut.exhausted := by
  rw [contLoopT]
  simp [hs]

/-- The method `_calculate` returns the result array untouched the moment the continuation
of the first target exhausts. -/
theorem calcAuxT_exhausted_aux (rf : RootFollower)
    (solver : (ℂ → ℂ) → ℂ → ℂ → SecRes) (z0 z1 : ℂ) (desc : Bool)
    (n sf cf : Nat) (kw : ℝ) (rest : List ℝ) (i : Nat) (k : ℝ)
    (ret : List ℂ)
    (h : (contLoopT rf solver z0 z1 sf kw k (kw - k) cf).1
      = ContOut.exhausted) :
    (calcAuxT rf solver z0 z1 desc n sf cf (kw :: rest) i k ret).1
      = CalcOut.ok ret := by
  rw [calcAuxT]
  simp [h]

/-- A real anchor exhausts `_calculate` on its very first target, and the
zero-initialized result array is returned as it stands. -/
theorem calcT_exhausts (rf : RootFollower)
    (solver : (ℂ → ℂ) → ℂ → ℂ → SecRes) (kw : ℝ) (rest : List ℝ)
    (n cf : Nat) (him : rf.z_start.im = 0)
    (hks : (kw - rf.k_start) / 10 ^ (n + 1) < 1 / 1000000) :
    (rf.calcT solver (kw :: rest) (n + 1) (cf + 1)).1
      = CalcOut.ok (List.replicate (kw :: rest).length 0) := by
  have hsh := shrinkLoopT_exhausts rf solver rf.z_start
    (perturb rf.z_start (1 / 10000)) rf.k_start him n (kw - rf.k_start) hks
  have hcont := contLoopT_exhausts rf solver rf.z_start
    (perturb rf.z_start (1 / 10000)) (n + 1) kw rf.k_start
    (kw - rf.k_start) cf hsh
  rw [RootFollower.calcT]
  exact calcAuxT_exhausted_aux rf solver rf.z_start
    (perturb rf.z_start (1 / 10000)) _ (kw :: rest).length (n + 1) (cf + 1)
    kw rest 0 rf.k_start (List.replicate (kw :: rest).length 0) hcont

theorem rfTriv_zstart_im : rfTriv.z_start.im = 0 := by
  simp [rfTriv]

theorem calcT_nil (rf : RootFollower)
    (solver : (ℂ → ℂ) → ℂ → ℂ → SecRes) (sf cf : Nat) :
    rf.calcT solver [] sf cf = (CalcOut.ok [], []) := by
  rw [RootFollower.calcT]
  simp [calcAuxT]

/-- C2: FALSE of the spec (the code contradicts its own contract here).
For `equation(z, k) = z - k` anchored at `(0, 0)`, every secant solve at
any target finds a real root, the branch test `root.imag*z_start.imag > 0`
is `0 * 0 > 0` and always fails — for every possible solver behaviour —
so the first continuation exhausts and `calculate([1, 2, 3])` returns the
zero-initialized `[0, 0, 0]`, whose first entry is not within `1e-6` of
the requested value `1`. -/
theorem C2_trivial_case_returns_zeros (solver : (ℂ → ℂ) → ℂ → ℂ → SecRes) :
    (rfTriv.calculateT solver [1, 2, 3] 7 1).1 = some [0, 0, 0] ∧
    (1 / 1000000 : ℝ) < Complex.abs ((0 : ℂ) - 1) := by
  constructor
  · have hfiltLt : ([1, 2, 3] : List ℝ).filter
        (fun x => decide (x < rfTriv.k_start)) = [] := by
      norm_num [List.filter_cons, List.filter_nil, rfTriv]
    have hfiltGt : ([1, 2, 3] : List ℝ).filter
        (fun x => decide (rfTriv.k_start < x)) = [1, 2, 3] := by
      norm_num [List.filter_cons, List.filter_nil, rfTriv]
    have hselLt : idxWhere (fun x => decide (x < rfTriv.k_start))
        ([1, 2, 3] : List ℝ) = [] := by
      norm_num [idxWhere, idxWhereAux, rfTriv]
    have hselGt : idxWhere (fun x => decide (rfTriv.k_start < x))
        ([1, 2, 3] : List ℝ) = [0, 1, 2] := by
      norm_num [idxWhere, idxWhereAux, rfTriv]
    have hgt : (rfTriv.calcT solver [1, 2, 3] 7 1).1
        = CalcOut.ok [0, 0, 0] := by
      have h := calcT_exhausts rfTriv solver 1 [2, 3] 6 0 rfTriv_zstart_im
        (by norm_num [rfTriv])
      simpa using h
    rw [RootFollower.calculateT]
    simp only [hfiltLt, hfiltGt, hselLt, hselGt, calcT_nil, hgt,
      List.length_cons, List.length_nil]
    norm_num [scatter, List.replicate]
  · rw [zero_sub, map_neg_eq_map, map_one]
    norm_num

/-- C3 counterexample: FALSE of the claim. In a run where the first
continuation exhausts (`equation(z, k) = z - k`, anchor `(0, 0)`,
targets `[2, 3, 4]`), all result slots — for the exhausted target *and*
the remaining targets — hold the zero-initialized placeholder
`0+0j`; no distinguished sentinel such as NaN is written. -/
theorem C3_counter_exhausted_slot_is_zero_placeholder :
    (rfTriv.calculateT secantModel [2, 3, 4] 7 1).1
      = some (List.replicate 3 0) := by
  have hfiltLt : ([2, 3, 4] : List ℝ).filter
      (fun x => decide (x < rfTriv.k_start)) = [] := by
    norm_num [List.filter_cons, List.filter_nil, rfTriv]
  have hfiltGt : ([2, 3, 4] : List ℝ).filter
      (fun x => decide (rfTriv.k_start < x)) = [2, 3, 4] := by
    norm_num [List.filter_cons, List.filter_nil, rfTriv]
  have hselLt : idxWhere (fun x => decide (x < rfTriv.k_start))
      ([2, 3, 4] : List ℝ) = [] := by
    norm_num [idxWhere, idxWhereAux, rfTriv]
  have hselGt : idxWhere (fun x => decide (rfTriv.k_start < x))
      ([2, 3, 4] : List ℝ) = [0, 1, 2] := by
    norm_num [idxWhere, idxWhereAux, rfTriv]
  have hgt : (rfTriv.calcT secantModel [2, 3, 4] 7 1).1
      = CalcOut.ok [0, 0, 0] := by
    have h := calcT_exhausts rfTriv secantModel 2 [3, 4] 6 0 rfTriv_zstart_im
      (by norm_num [rfTriv])
    simpa using h
  rw [RootFollower.calculateT]
  simp only [hfiltLt, hfiltGt, hselLt, hselGt, calcT_nil, hgt,
    List.length_cons, List.length_nil]
  norm_num [scatter, List.replicate]

/-- C3 amended: when the continuation of a target exhausts, `_calculate`
returns the result array exactly as it stands — the slot of the exhausted
target and every remaining slot keep their zero-initialized value `0+0j`
(no NaN-style sentinel is written), and no exception is raised; only the batch of
the other direction is still processed by `calculate`. -/
theorem C3_exhaustion_keeps_zero_placeholders (rf : RootFollower)
    (solver : (ℂ → ℂ) → ℂ → ℂ → SecRes) (z0 z1 : ℂ) (desc : Bool)
    (n sf cf : Nat) (kw : ℝ) (rest : List ℝ) (i : Nat) (k : ℝ)
    (ret : List ℂ)
    (h : (contLoopT rf solver z0 z1 sf kw k (kw - k) cf).1
      = ContOut.exhausted) :
    (calcAuxT rf solver z0 z1 desc n sf cf (kw :: rest) i k ret).1
      = CalcOut.ok ret :=
  calcAuxT_exhausted_aux rf solver z0 z1 desc n sf cf kw rest i k ret h

/-- C3 amended, witnessed on the concrete exhausting run with the
zero-initialized array `[0, 0, 0]` and remaining targets `[3, 4]`. -/
theorem C3_exhaustion_keeps_zero_placeholders_witness :
    (contLoopT rfTriv secantModel rfTriv.z_start
        (perturb rfTriv.z_start (1 / 10000)) 7 2 rfTriv.k_start
        (2 - rfTriv.k_start) 1).1 = ContOut.exhausted ∧
    (calcAuxT rfTriv secantModel rfTriv.z_start
        (perturb rfTriv.z_start (1 / 10000)) false 3 7 1 [2, 3, 4] 0
        rfTriv.k_start [0, 0, 0]).1 = CalcOut.ok [0, 0, 0] := by
  have hsh := shrinkLoopT_exhausts rfTriv secantModel rfTriv.z_start
    (perturb rfTriv.z_start (1 / 10000)) rfTriv.k_start rfTriv_zstart_im 6
    (2 - rfTriv.k_start) (by norm_num [rfTriv])
  have hcont := contLoopT_exhausts rfTriv secantModel rfTriv.z_start
    (perturb rfTriv.z_start (1 / 10000)) 7 2 rfTriv.k_start
    (2 - rfTriv.k_start) 0 hsh
  exact ⟨hcont, C3_exhaustion_keeps_zero_placeholders rfTriv secantModel
    rfTriv.z_start (perturb rfTriv.z_start (1 / 10000)) false 3 7 1 2
    [3, 4] 0 rfTriv.k_start [0, 0, 0] hcont⟩

theorem shrinkLoopT_trace_anchor (rf : RootFollower)
    (solver : (ℂ → ℂ) → ℂ → ℂ → SecRes) (z0 z1 : ℂ) (k : ℝ) :
    ∀ (fuel : Nat) (ks : ℝ) (p : ℂ × ℂ),
      p ∈ (shrinkLoopT rf solver z0 z1 k ks fuel).2 → p = (z0, z1) := by
  intro fuel
  induction fuel with
  | zero =>
    intro ks p hp
    simp [shrinkLoopT] at hp
  | succ m ih =>
    intro ks p hp
    simp only [shrinkLoopT] at hp
    by_cases hacc : (solver (fun x => rf.func x (k + ks)) z0 z1).converged
        = true ∧
        (solver (fun x => rf.func x (k + ks)) z0 z1).root.im * z0.im > 0
    · rw [if_pos hacc] at hp
      simpa using hp
    · rw [if_neg hacc] at hp
      by_cases hsm : ks / 10 < 1 / 1000000
      · rw [if_pos hsm] at hp
        simpa using hp
      · rw [if_neg hsm] at hp
        rcases List.mem_cons.mp hp with h | h
        · exact h
        · exact ih (ks / 10) p h

theorem contLoopT_trace_anchor (rf : RootFollower)
    (solver : (ℂ → ℂ) → ℂ → ℂ → SecRes) (z0 z1 : ℂ) (sf : Nat) (kw : ℝ) :
    ∀ (cf : Nat) (k ks : ℝ) (p : ℂ × ℂ),
      p ∈ (contLoopT rf solver z0 z1 sf kw k ks cf).2 → p = (z0, z1) := by
  intro cf
  induction cf with
  | zero =>
    intro k ks p hp
    simp [contLoopT] at hp
  | succ m ih =>
    intro k ks p hp
    simp only [contLoopT] at hp
    cases hsh : (shrinkLoopT rf solver z0 z1 k ks sf).1 with
    | accept z ksAcc =>
      rw [hsh] at hp
      simp only at hp
      by_cases hfin : (0 < ksAcc * Real.sqrt 2 ∧
            kw < k + ksAcc + ksAcc * Real.sqrt 2) ∨
          ((¬ 0 < ksAcc * Real.sqrt 2) ∧ k + ksAcc + ksAcc * Real.sqrt 2 < kw)
      · rw [if_pos hfin] at hp
        exact shrinkLoopT_trace_anchor rf solver z0 z1 k sf ks p hp
      · rw [if_neg hfin] at hp
        rcases List.mem_append.mp hp with h | h
        · exact shrinkLoopT_trace_anchor rf solver z0 z1 k sf ks p h
        · exact ih (k + ksAcc) (ksAcc * Real.sqrt 2) p h
    | exhausted =>
      rw [hsh] at hp
      simp only at hp
      exact shrinkLoopT_trace_anchor rf solver z0 z1 k sf ks p hp
    | fuelOut =>
      rw [hsh] at hp
      simp only at hp
      exact shrinkLoopT_trace_anchor rf solver z0 z1 k sf ks p hp

theorem calcAuxT_trace_anchor (rf : RootFollower)
    (solver : (ℂ → ℂ) → ℂ → ℂ → SecRes) (z0 z1 : ℂ) (desc : Bool)
    (n sf cf : Nat) :
    ∀ (targets : List ℝ) (i : Nat) (k : ℝ) (ret : List ℂ) (p : ℂ × ℂ),
      p ∈ (calcAuxT rf solver z0 z1 desc n sf cf targets i k ret).2 →
        p = (z0, z1) := by
  intro targets
  induction targets with
  | nil =>
    intro i k ret p hp
    simp [calcAuxT] at hp
  | cons kw rest ih =>
    intro i k ret p hp
    simp only [calcAuxT] at hp
    cases hc : (contLoopT rf solver z0 z1 sf kw k (kw - k) cf).1 with
    | ok kn root =>
      rw [hc] at hp
      simp only at hp
      rcases List.mem_append.mp hp with h | h
      · exact contLoopT_trace_anchor rf solver z0 z1 sf kw cf k (kw - k) p h
      · exact ih (i + 1) kn _ p h
    | exhausted =>
      rw [hc] at hp
      simp only at hp
      exact contLoopT_trace_anchor rf solver z0 z1 sf kw cf k (kw - k) p hp
    | fuelOut =>
      rw [hc] at hp
      simp only at hp
      exact contLoopT_trace_anchor rf solver z0 z1 sf kw cf k (kw - k) p hp

theorem calcT_trace_anchor (rf : RootFollower)
    (solver : (ℂ → ℂ) → ℂ → ℂ → SecRes) (kwant : List ℝ) (sf cf : Nat)
    (p : ℂ × ℂ) (hp : p ∈ (rf.calcT solver kwant sf cf).2) :
    p = (rf.z_start, perturb rf.z_start (1 / 10000)) := by
  simp only [RootFollower.calcT] at hp
  exact calcAuxT_trace_anchor rf solver rf.z_start
    (perturb rf.z_start (1 / 10000)) _ kwant.length sf cf kwant 0
    rf.k_start _ p hp

/-- C5 amended: in every `calculate` run, *every* secant solve is seeded
from the original anchor pair `(z_start, perturb(z_start, 1e-4))`; the
previously converged root is never reused as a seed (the reseeding
statements of the source are commented out). -/
theorem C5_all_seeds_from_anchor (rf : RootFollower)
    (solver : (ℂ → ℂ) → ℂ → ℂ → SecRes) (kwant : List ℝ) (sf cf : Nat)
    (p : ℂ × ℂ) (hp : p ∈ (rf.calculateT solver kwant sf cf).2) :
    p = (rf.z_start, perturb rf.z_start (1 / 10000)) := by
  simp only [RootFollower.calculateT] at hp
  rcases List.mem_append.mp hp with h | h
  · exact calcT_trace_anchor rf solver _ sf cf p h
  · exact calcT_trace_anchor rf solver _ sf cf p h

/-- On a linear equation `f x = x - c`, the secant update from two
distinct seeds (neither already at the root) lands exactly on `c`, and
the next iteration confirms convergence. -/
theorem secantIter_linear (f : ℂ → ℂ) (c p0 p1 : ℂ) (n : Nat)
    (hf : ∀ x, f x = x - c) (h1 : p1 ≠ c) (h0 : p0 ≠ p1) :
    secantIter f p0 p1 (n + 2) = ⟨c, true⟩ := by
  have hfp1 : ¬ f p1 = 0 := by
    rw [hf]
    exact sub_ne_zero.mpr h1
  have hfne : ¬ f p1 = f p0 := by
    rw [hf, hf]
    intro h
    exact h0 (sub_left_inj.mp h).symm
  have hpp : p1 - p0 ≠ 0 := sub_ne_zero.mpr (Ne.symm h0)
  have hstep : p1 - f p1 * (p1 - p0) / (f p1 - f p0) = c := by
    rw [hf, hf, sub_sub_sub_cancel_right, mul_div_assoc, div_self hpp,
      mul_one, sub_sub_cancel]
  rw [secantIter, if_neg hfp1, if_neg hfne, hstep, secantIter,
    if_pos (by rw [hf]; exact sub_self c)]

theorem perturb_I_re : (perturb Complex.I (1 / 10000)).re = 1 / 10000 := by
  rw [perturb]
  simp [Complex.mul_re, Complex.mul_im, Complex.add_re, Complex.add_im,
    Complex.I_re, Complex.I_im, Complex.one_re, Complex.one_im,
    Complex.ofReal_re, Complex.ofReal_im]

theorem perturb_I_ne (c : ℂ) (hc : c.re ≠ 1 / 10000) :
    perturb Complex.I (1 / 10000) ≠ c := by
  intro h
  exact hc (h ▸ perturb_I_re)

theorem I_ne_perturb_I : Complex.I ≠ perturb Complex.I (1 / 10000) := by
  intro h
  have hre := perturb_I_re
  rw [← h] at hre
  norm_num [Complex.I_re] at hre

/-- The solver model finds the exact root `k + i` of the rfI equation. -/
theorem rfI_secant_solve (k : ℝ) (hk : k ≠ 1 / 10000) :
    secantModel (fun x => rfI.func x k) Complex.I
        (perturb Complex.I (1 / 10000))
      = ⟨(k : ℂ) + Complex.I, true⟩ := by
  have hf : ∀ x : ℂ, (fun x => rfI.func x k) x = x - ((k : ℂ) + Complex.I) := by
    intro x
    simp only [rfI]
    ring
  have h1 : perturb Complex.I (1 / 10000) ≠ (k : ℂ) + Complex.I := by
    apply perturb_I_ne
    simp only [Complex.add_re, Complex.ofReal_re, Complex.I_re, add_zero]
    exact hk
  have := secantIter_linear (fun x => rfI.func x k) ((k : ℂ) + Complex.I)
    Complex.I (perturb Complex.I (1 / 10000)) 8 hf h1 I_ne_perturb_I
  simpa [secantModel] using this

/-- An accepting pass of the inner loop for `rfI`: the solve at `k + ks`
converges to `(k + ks) + i`, whose imaginary part matches that of the anchor. -/
theorem rfI_shrink (k ks : ℝ) (hk : k + ks ≠ 1 / 10000) :
    shrinkLoopT rfI secantModel Complex.I (perturb Complex.I (1 / 10000))
        k ks 7
      = (ShrinkOut.accept ⟨((k + ks : ℝ) : ℂ) + Complex.I, true⟩ ks,
         [(Complex.I, perturb Complex.I (1 / 10000))]) := by
  simp only [shrinkLoopT]
  rw [rfI_secant_solve (k + ks) hk]
  rw [if_pos ?hcond]
  case hcond =>
    refine ⟨rfl, ?_⟩
    simp [Complex.add_im, Complex.I_im, Complex.ofReal_im]

/-- An accepting pass of the per-target loop for `rfI`: the first solve
is already at `kw`, it is accepted, and the grown step overshoots, so the
loop finishes with root `kw + i`. -/
theorem rfI_cont (k kw : ℝ) (hk : kw ≠ 1 / 10000) (hlt : k < kw) :
    contLoopT rfI secantModel Complex.I (perturb Complex.I (1 / 10000))
        7 kw k (kw - k) 2
      = (ContOut.ok kw ((kw : ℂ) + Complex.I),
         [(Complex.I, perturb Complex.I (1 / 10000))]) := by
  have hs := rfI_shrink k (kw - k) (by rwa [show k + (kw - k) = kw from by ring])
  have hsqrt : (0 : ℝ) < Real.sqrt 2 := Real.sqrt_pos.mpr (by norm_num)
  have hkspos : (0 : ℝ) < kw - k := by linarith
  simp only [contLoopT, hs]
  rw [if_pos (Or.inl ⟨mul_pos hkspos hsqrt, by nlinarith⟩)]
  rw [show k + (kw - k) = kw from by ring]

theorem rfI_calcAux :
    calcAuxT rfI secantModel Complex.I (perturb Complex.I (1 / 10000))
        false 2 7 2 [1, 2] 0 0 [0, 0]
      = (CalcOut.ok [1 + Complex.I, 2 + Complex.I],
         [(Complex.I, perturb Complex.I (1 / 10000)),
          (Complex.I, perturb Complex.I (1 / 10000))]) := by
  have h1 := rfI_cont 0 1 (by norm_num) (by norm_num)
  have h2 := rfI_cont 1 2 (by norm_num) (by norm_num)
  simp only [calcAuxT, h1, h2]
  norm_num [List.set]

theorem rfI_calcT :
    rfI.calcT secantModel [1, 2] 7 2
      = (CalcOut.ok [1 + Complex.I, 2 + Complex.I],
         [(Complex.I, perturb Complex.I (1 / 10000)),
          (Complex.I, perturb Complex.I (1 / 10000))]) := by
  rw [RootFollower.calcT]
  have hdesc : decide ((1 : ℝ) < (0 : ℝ)) = false := by
    norm_num
  have hz : rfI.z_start = Complex.I := rfl
  have hk : rfI.k_start = 0 := rfl
  simp only [hz, hk, hdesc]
  exact rfI_calcAux

theorem rfI_run :
    rfI.calculateT secantModel [1, 2] 7 2
      = (some [1 + Complex.I, 2 + Complex.I],
         [(Complex.I, perturb Complex.I (1 / 10000)),
          (Complex.I, perturb Complex.I (1 / 10000))]) := by
  have hfiltLt : ([1, 2] : List ℝ).filter
      (fun x => decide (x < rfI.k_start)) = [] := by
    norm_num [List.filter_cons, List.filter_nil, rfI]
  have hfiltGt : ([1, 2] : List ℝ).filter
      (fun x => decide (rfI.k_start < x)) = [1, 2] := by
    norm_num [List.filter_cons, List.filter_nil, rfI]
  have hselLt : idxWhere (fun x => decide (x < rfI.k_start))
      ([1, 2] : List ℝ) = [] := by
    norm_num [idxWhere, idxWhereAux, rfI]
  have hselGt : idxWhere (fun x => decide (rfI.k_start < x))
      ([1, 2] : List ℝ) = [0, 1] := by
    norm_num [idxWhere, idxWhereAux, rfI]
  rw [RootFollower.calculateT]
  simp only [hfiltLt, hfiltGt, hselLt, hselGt, calcT_nil, rfI_calcT,
    List.length_cons, List.length_nil]
  norm_num [scatter, List.replicate, List.set]

/-- C5 counterexample: FALSE of the claim. In the run of
`equation(z, k) = z - i - k` anchored at `(i, 0)` with targets `[1, 2]`,
the first target converges to `1 + i`, yet the secant of the second target
solve is still seeded from the anchor pair `(i, perturb(i, 1e-4))` — the
recorded seed of the second solve is the anchor, not the previously
converged root `1 + i`. -/
theorem C5_counter_second_solve_seeded_from_anchor :
    (rfI.calculateT secantModel [1, 2] 7 2).1
      = some [1 + Complex.I, 2 + Complex.I] ∧
    (rfI.calculateT secantModel [1, 2] 7 2).2
      = [(Complex.I, perturb Complex.I (1 / 10000)),
         (Complex.I, perturb Complex.I (1 / 10000))] ∧
    1 + Complex.I ≠ Complex.I := by
  refine ⟨by rw [rfI_run], by rw [rfI_run], ?_⟩
  intro h
  have hre := congrArg Complex.re h
  norm_num [Complex.add_re, Complex.one_re, Complex.I_re] at hre

/-- C5 amended, witnessed on the concrete `rfI` run: the recorded seed
pair is the anchor pair. -/
theorem C5_all_seeds_from_anchor_witness :
    ((Complex.I, perturb Complex.I (1 / 10000))
        ∈ (rfI.calculateT secantModel [1, 2] 7 2).2) ∧
    (Complex.I, perturb Complex.I (1 / 10000))
      = (rfI.z_start, perturb rfI.z_start (1 / 10000)) := by
  have hmem : (Complex.I, perturb Complex.I (1 / 10000))
      ∈ (rfI.calculateT secantModel [1, 2] 7 2).2 := by
    rw [rfI_run]
    simp
  exact ⟨hmem, C5_all_seeds_from_anchor rfI secantModel [1, 2] 7 2 _ hmem⟩

theorem scatter_getElem?_of_not_mem :
    ∀ (sel : List Nat) (vals ret : List ℂ) (i : Nat), i ∉ sel →
      (scatter ret sel vals)[i]? = ret[i]? := by
  intro sel
  induction sel with
  | nil =>
    intro vals ret i _
    rw [scatter]
  | cons j js ih =>
    intro vals ret i hi
    cases vals with
    | nil => rw [scatter]
    | cons v vs =>
      rw [scatter]
      have hij : i ≠ j := fun h => hi (h ▸ List.mem_cons_self j js)
      rw [ih vs (ret.set j v) i (fun h => hi (List.mem_cons_of_mem j h))]
      exact List.getElem?_set_ne (Ne.symm hij)

/-- C10: an entry of `k_want` exactly equal to `k_start` is selected by
neither the strict `k_want < k_start` branch nor the strict
`k_want > k_start` branch of `calculate`, so its result slot is returned
still holding the initial value `0+0j`. -/
theorem C10_kstart_entry_left_at_zero (rf : RootFollower)
    (solver : (ℂ → ℂ) → ℂ → ℂ → SecRes) (kwant : List ℝ) (sf cf : Nat)
    (ret : List ℂ) (i : Nat)
    (hret : (rf.calculateT solver kwant sf cf).1 = some ret)
    (hk : kwant[i]? = some rf.k_start) :
    ret[i]? = some 0 := by
  have hnotLt : i ∉ idxWhere (fun x => decide (x < rf.k_start)) kwant := by
    intro hmem
    rw [idxWhere] at hmem
    obtain ⟨-, x, hx, hpx⟩ := mem_idxWhereAux hmem
    rw [Nat.sub_zero, List.get?_eq_getElem?, hk] at hx
    cases Option.some.inj hx
    rw [decide_eq_true_eq] at hpx
    exact lt_irrefl _ hpx
  have hnotGt : i ∉ idxWhere (fun x => decide (rf.k_start < x)) kwant := by
    intro hmem
    rw [idxWhere] at hmem
    obtain ⟨-, x, hx, hpx⟩ := mem_idxWhereAux hmem
    rw [Nat.sub_zero, List.get?_eq_getElem?, hk] at hx
    cases Option.some.inj hx
    rw [decide_eq_true_eq] at hpx
    exact lt_irrefl _ hpx
  have hlen : i < kwant.length := by
    by_contra hge
    rw [List.getElem?_eq_none (by omega)] at hk
    cases hk
  rw [RootFollower.calculateT] at hret
  simp only at hret
  cases hlt : (rf.calcT solver
      (kwant.filter fun x => decide (x < rf.k_start)) sf cf).1 with
  | fuelOut =>
    rw [hlt] at hret
    simp at hret
  | ok ltV =>
    cases hgt : (rf.calcT solver
        (kwant.filter fun x => decide (rf.k_start < x)) sf cf).1 with
    | fuelOut =>
      rw [hlt, hgt] at hret
      simp at hret
    | ok gtV =>
      rw [hlt, hgt] at hret
      simp only [Option.some.injEq] at hret
      rw [← hret]
      rw [scatter_getElem?_of_not_mem _ _ _ _ hnotGt,
        scatter_getElem?_of_not_mem _ _ _ _ hnotLt]
      exact List.getElem?_replicate_of_lt hlen

/-- C10, witnessed: the single requested parameter `0` equals `k_start`,
and the returned slot is the initial `0+0j`. -/
theorem C10_kstart_entry_left_at_zero_witness :
    (rfTriv.calculateT secantModel [0] 1 1).1 = some [0] ∧
    ([0] : List ℝ)[0]? = some rfTriv.k_start ∧
    ([0] : List ℂ)[0]? = some 0 := by
  have hfiltLt : ([0] : List ℝ).filter
      (fun x => decide (x < rfTriv.k_start)) = [] := by
    norm_num [List.filter_cons, List.filter_nil, rfTriv]
  have hfiltGt : ([0] : List ℝ).filter
      (fun x => decide (rfTriv.k_start < x)) = [] := by
    norm_num [List.filter_cons, List.filter_nil, rfTriv]
  have hselLt : idxWhere (fun x => decide (x < rfTriv.k_start))
      ([0] : List ℝ) = [] := by
    norm_num [idxWhere, idxWhereAux, rfTriv]
  have hselGt : idxWhere (fun x => decide (rfTriv.k_start < x))
      ([0] : List ℝ) = [] := by
    norm_num [idxWhere, idxWhereAux, rfTriv]
  have h1 : (rfTriv.calculateT secantModel [0] 1 1).1 = some [0] := by
    rw [RootFollower.calculateT]
    simp only [hfiltLt, hfiltGt, hselLt, hselGt, calcT_nil,
      List.length_cons, List.length_nil]
    norm_num [scatter, List.replicate]
  have h2 : ([0] : List ℝ)[0]? = some rfTriv.k_start := by
    norm_num [rfTriv]
  exact ⟨h1, h2, C10_kstart_entry_left_at_zero rfTriv secantModel [0] 1 1
    [0] 0 h1 h2⟩

end Spec2Proof
